import Mathlib

/-!
# Verification of the plist event-stream core (`src/stream/mod.rs`)

A shallow embedding of the event vocabulary, the flattening producer
(`IntoEvents::new_inner`), and the lazily-initializing format dispatcher
(`Reader`), together with proofs of the specified properties: the shape of
flattened event sequences, stack balance, the round-trip law against a
reconstructing sink, the format-sniffing rules, and the dispatcher's
state-machine invariants.
-/

set_option maxHeartbeats 1000000

namespace Plist

/-- Payload of `RealValue` (`f64` in the source), carried opaquely by its
64-bit pattern; the stream core only moves real values, never inspects them. -/
structure F64 where
  bits : Nat
deriving DecidableEq

/-- Payload of `DateValue` (the crate's `Date` type, defined outside this
module), carried opaquely; the stream core only moves date values. -/
structure Date where
  raw : Nat
deriving DecidableEq

abbrev Str := String
abbrev Bytes := List Nat

/-- The `Event` enum of `src/stream/mod.rs` lines 30–49.  The source enum
carries an additional hidden `__Nonexhaustive` placeholder variant
(`#[doc(hidden)]`), which we reproduce faithfully.  The `Option<u64>` length
hints become `Option Nat` (the `usize → u64` cast at the emission sites is
value-preserving), `i64` becomes `Int`, `Vec<u8>` a byte list. -/
inductive Event where
  | StartArray : Option Nat → Event
  | EndArray : Event
  | StartDictionary : Option Nat → Event
  | EndDictionary : Event
  | BooleanValue : Bool → Event
  | DataValue : Bytes → Event
  | DateValue : Date → Event
  | IntegerValue : Int → Event
  | RealValue : F64 → Event
  | StringValue : Str → Event
  | __Nonexhaustive : Event
deriving DecidableEq

/-- Modelled from the spec: the tree `Value` type (defined in the crate's
value module, outside this stream module) — "a recursive sum type over
Array(ordered sequence of Value), Dictionary(ordered mapping of string to
Value), Boolean, Data(bytes), Date, Real, Integer, String", plus the
impossible/placeholder variant that `new_inner` matches at line 88.  A
dictionary is an ordered association list; its list order is the iteration
order. -/
inductive Value where
  | Array : List Value → Value
  | Dictionary : List (Str × Value) → Value
  | Boolean : Bool → Value
  | Data : Bytes → Value
  | Date : Plist.Date → Value
  | Real : F64 → Value
  | Integer : Int → Value
  | String : Str → Value
  | __Nonexhaustive : Value

mutual

/-- A value is well formed when the `__Nonexhaustive` placeholder appears
nowhere in it. -/
def Value.wf : Value → Bool
  | .Array array => Value.wfList array
  | .Dictionary dict => Value.wfDict dict
  | .Boolean _ => true
  | .Data _ => true
  | .Date _ => true
  | .Real _ => true
  | .Integer _ => true
  | .String _ => true
  | .__Nonexhaustive => false

/-- Well-formedness of every element of an array. -/
def Value.wfList : List Value → Bool
  | [] => true
  | v :: vs => v.wf && Value.wfList vs

/-- Well-formedness of every value of a dictionary. -/
def Value.wfDict : List (Str × Value) → Bool
  | [] => true
  | (_, v) :: kvs => v.wf && Value.wfDict kvs

end

mutual

/-- `IntoEvents::new_inner` (`src/stream/mod.rs` lines 65–90).  The
`&mut Vec<Event>` out-parameter becomes an accumulator that is passed in and
returned extended; the `unreachable!()` arm at line 88 becomes `none`
(a panic, not a value). -/
def IntoEvents.new_inner : Value → List Event → Option (List Event)
  | .Array array, events =>
      match IntoEvents.new_innerList array (events ++ [.StartArray (some array.length)]) with
      | some evs => some (evs ++ [.EndArray])
      | none => none
  | .Dictionary dict, events =>
      match IntoEvents.new_innerDict dict (events ++ [.StartDictionary (some dict.length)]) with
      | some evs => some (evs ++ [.EndDictionary])
      | none => none
  | .Boolean value, events => some (events ++ [.BooleanValue value])
  | .Data value, events => some (events ++ [.DataValue value])
  | .Date value, events => some (events ++ [.DateValue value])
  | .Real value, events => some (events ++ [.RealValue value])
  | .Integer value, events => some (events ++ [.IntegerValue value])
  | .String value, events => some (events ++ [.StringValue value])
  | .__Nonexhaustive, _ => none

/-- The `for value in array` loop body of `new_inner`'s array arm. -/
def IntoEvents.new_innerList : List Value → List Event → Option (List Event)
  | [], events => some events
  | value :: rest, events =>
      match IntoEvents.new_inner value events with
      | some evs => IntoEvents.new_innerList rest evs
      | none => none

/-- The `for (key, value) in dict` loop body of `new_inner`'s dictionary arm. -/
def IntoEvents.new_innerDict : List (Str × Value) → List Event → Option (List Event)
  | [], events => some events
  | (key, value) :: rest, events =>
      match IntoEvents.new_inner value (events ++ [.StringValue key]) with
      | some evs => IntoEvents.new_innerDict rest evs
      | none => none

end

/-- `IntoEvents::new` (`src/stream/mod.rs` lines 57–63): flatten a value into
the full event sequence, starting from an empty vector. -/
def IntoEvents.new (value : Value) : Option (List Event) :=
  IntoEvents.new_inner value []

mutual

/-- The flattening as the spec words it (§4.1): "recursive pre-order
depth-first walk.  Array of length n → emit StartArray(Some(n)); recursively
flatten each element in order; emit EndArray.  Dictionary → emit
StartDictionary(Some(n)) where n is entry count; for each entry in the
dictionary's iteration order, emit StringValue(key) then recursively flatten
the value; emit EndDictionary.  Scalar variants → emit the single
corresponding value event."  Stated as a pure function of the tree; the
placeholder variant (outside the spec's tree type) maps to the empty
sequence and is excluded by well-formedness wherever this definition is
compared with the source one. -/
def flattenSpec : Value → List Event
  | .Array array => .StartArray (some array.length) :: (flattenSpecList array ++ [.EndArray])
  | .Dictionary dict =>
      .StartDictionary (some dict.length) :: (flattenSpecDict dict ++ [.EndDictionary])
  | .Boolean value => [.BooleanValue value]
  | .Data value => [.DataValue value]
  | .Date value => [.DateValue value]
  | .Real value => [.RealValue value]
  | .Integer value => [.IntegerValue value]
  | .String value => [.StringValue value]
  | .__Nonexhaustive => []

/-- Concatenated flattenings of the elements of an array, in order. -/
def flattenSpecList : List Value → List Event
  | [] => []
  | v :: vs => flattenSpec v ++ flattenSpecList vs

/-- Concatenated key/flattening pairs of the entries of a dictionary, in
iteration order. -/
def flattenSpecDict : List (Str × Value) → List Event
  | [] => []
  | (k, v) :: kvs => .StringValue k :: (flattenSpec v ++ flattenSpecDict kvs)

end

mutual

/-- The source flattening, run on any accumulator, succeeds on a well-formed
value and appends exactly the spec-side pre-order flattening. -/
theorem new_inner_eq_flattenSpec : ∀ (v : Value) (acc : List Event), v.wf = true →
    IntoEvents.new_inner v acc = some (acc ++ flattenSpec v)
  | .Array array, acc, h => by
      have hl : Value.wfList array = true := by
        simpa [Value.wf] using h
      simp only [IntoEvents.new_inner, flattenSpec,
        new_innerList_eq_flattenSpec array (acc ++ [.StartArray (some array.length)]) hl]
      simp
  | .Dictionary dict, acc, h => by
      have hl : Value.wfDict dict = true := by
        simpa [Value.wf] using h
      simp only [IntoEvents.new_inner, flattenSpec,
        new_innerDict_eq_flattenSpec dict (acc ++ [.StartDictionary (some dict.length)]) hl]
      simp
  | .Boolean value, acc, _ => by simp [IntoEvents.new_inner, flattenSpec]
  | .Data value, acc, _ => by simp [IntoEvents.new_inner, flattenSpec]
  | .Date value, acc, _ => by simp [IntoEvents.new_inner, flattenSpec]
  | .Real value, acc, _ => by simp [IntoEvents.new_inner, flattenSpec]
  | .Integer value, acc, _ => by simp [IntoEvents.new_inner, flattenSpec]
  | .String value, acc, _ => by simp [IntoEvents.new_inner, flattenSpec]
  | .__Nonexhaustive, acc, h => by simp [Value.wf] at h

/-- The array loop of the source flattening appends the concatenated
flattenings of the elements. -/
theorem new_innerList_eq_flattenSpec : ∀ (vs : List Value) (acc : List Event),
    Value.wfList vs = true →
    IntoEvents.new_innerList vs acc = some (acc ++ flattenSpecList vs)
  | [], acc, _ => by simp [IntoEvents.new_innerList, flattenSpecList]
  | v :: vs, acc, h => by
      have hv : v.wf = true := by
        simp [Value.wfList, Bool.and_eq_true] at h
        exact h.1
      have hvs : Value.wfList vs = true := by
        simp [Value.wfList, Bool.and_eq_true] at h
        exact h.2
      simp only [IntoEvents.new_innerList, new_inner_eq_flattenSpec v acc hv,
        new_innerList_eq_flattenSpec vs (acc ++ flattenSpec v) hvs, flattenSpecList]
      simp

/-- The dictionary loop of the source flattening appends the concatenated
key/value flattenings of the entries. -/
theorem new_innerDict_eq_flattenSpec : ∀ (kvs : List (Str × Value)) (acc : List Event),
    Value.wfDict kvs = true →
    IntoEvents.new_innerDict kvs acc = some (acc ++ flattenSpecDict kvs)
  | [], acc, _ => by simp [IntoEvents.new_innerDict, flattenSpecDict]
  | (k, v) :: kvs, acc, h => by
      have hv : v.wf = true := by
        simp [Value.wfDict, Bool.and_eq_true] at h
        exact h.1
      have hkvs : Value.wfDict kvs = true := by
        simp [Value.wfDict, Bool.and_eq_true] at h
        exact h.2
      simp only [IntoEvents.new_innerDict,
        new_inner_eq_flattenSpec v (acc ++ [.StringValue k]) hv]
      rw [new_innerDict_eq_flattenSpec kvs _ hkvs]
      simp [flattenSpecDict]

end

/-- The flattening producer on a well-formed value succeeds and produces the
spec-side pre-order flattening. -/
theorem new_eq_flattenSpec (v : Value) (h : v.wf = true) :
    IntoEvents.new v = some (flattenSpec v) := by
  simpa [IntoEvents.new] using new_inner_eq_flattenSpec v [] h

/-- Stack-based balance check over an event sequence: `stack` records the
currently open containers, `true` for an array and `false` for a dictionary.
The check succeeds exactly when every Start event has one matching End event
with correct nesting and nothing is left open. -/
def balCheck : List Event → List Bool → Bool
  | [], [] => true
  | [], _ :: _ => false
  | .StartArray _ :: rest, stack => balCheck rest (true :: stack)
  | .EndArray :: rest, stack =>
      match stack with
      | true :: stack' => balCheck rest stack'
      | _ => false
  | .StartDictionary _ :: rest, stack => balCheck rest (false :: stack)
  | .EndDictionary :: rest, stack =>
      match stack with
      | false :: stack' => balCheck rest stack'
      | _ => false
  | .BooleanValue _ :: rest, stack => balCheck rest stack
  | .DataValue _ :: rest, stack => balCheck rest stack
  | .DateValue _ :: rest, stack => balCheck rest stack
  | .IntegerValue _ :: rest, stack => balCheck rest stack
  | .RealValue _ :: rest, stack => balCheck rest stack
  | .StringValue _ :: rest, stack => balCheck rest stack
  | .__Nonexhaustive :: rest, stack => balCheck rest stack

/-- An event sequence is stack-balanced when the balance check starting from
no open containers succeeds. -/
def isBalanced (es : List Event) : Bool :=
  balCheck es []

mutual

/-- Consuming the flattening of one value leaves the balance stack exactly
where it was. -/
theorem balCheck_flattenSpec : ∀ (v : Value) (rest : List Event) (stack : List Bool),
    balCheck (flattenSpec v ++ rest) stack = balCheck rest stack
  | .Array a, rest, stack => by
      have h1 : flattenSpec (.Array a) ++ rest
          = .StartArray (some a.length) :: (flattenSpecList a ++ (.EndArray :: rest)) := by
        simp [flattenSpec]
      rw [h1]
      simp only [balCheck]
      rw [balCheck_flattenSpecList a (.EndArray :: rest) (true :: stack)]
      simp only [balCheck]
  | .Dictionary d, rest, stack => by
      have h1 : flattenSpec (.Dictionary d) ++ rest
          = .StartDictionary (some d.length) ::
              (flattenSpecDict d ++ (.EndDictionary :: rest)) := by
        simp [flattenSpec]
      rw [h1]
      simp only [balCheck]
      rw [balCheck_flattenSpecDict d (.EndDictionary :: rest) (false :: stack)]
      simp only [balCheck]
  | .Boolean b, rest, stack => by simp [flattenSpec, balCheck]
  | .Data b, rest, stack => by simp [flattenSpec, balCheck]
  | .Date b, rest, stack => by simp [flattenSpec, balCheck]
  | .Real b, rest, stack => by simp [flattenSpec, balCheck]
  | .Integer b, rest, stack => by simp [flattenSpec, balCheck]
  | .String b, rest, stack => by simp [flattenSpec, balCheck]
  | .__Nonexhaustive, rest, stack => by simp [flattenSpec]

/-- Consuming the flattenings of a list of array elements leaves the balance
stack exactly where it was. -/
theorem balCheck_flattenSpecList : ∀ (vs : List Value) (rest : List Event) (stack : List Bool),
    balCheck (flattenSpecList vs ++ rest) stack = balCheck rest stack
  | [], rest, stack => by simp [flattenSpecList]
  | v :: vs, rest, stack => by
      simp only [flattenSpecList, List.append_assoc, balCheck_flattenSpec v _ stack,
        balCheck_flattenSpecList vs rest stack]

/-- Consuming the key/value flattenings of dictionary entries leaves the
balance stack exactly where it was. -/
theorem balCheck_flattenSpecDict : ∀ (kvs : List (Str × Value)) (rest : List Event)
    (stack : List Bool),
    balCheck (flattenSpecDict kvs ++ rest) stack = balCheck rest stack
  | [], rest, stack => by simp [flattenSpecDict]
  | (k, v) :: kvs, rest, stack => by
      have h1 : flattenSpecDict ((k, v) :: kvs) ++ rest
          = .StringValue k :: (flattenSpec v ++ (flattenSpecDict kvs ++ rest)) := by
        simp [flattenSpecDict]
      rw [h1]
      simp only [balCheck]
      rw [balCheck_flattenSpec v _ stack, balCheck_flattenSpecDict kvs rest stack]

end

/-- Which events belong to the ten listed variants of the event vocabulary
(everything except the hidden `__Nonexhaustive` placeholder). -/
def Event.isListedVariant : Event → Bool
  | .StartArray _ => true
  | .EndArray => true
  | .StartDictionary _ => true
  | .EndDictionary => true
  | .BooleanValue _ => true
  | .DataValue _ => true
  | .DateValue _ => true
  | .IntegerValue _ => true
  | .RealValue _ => true
  | .StringValue _ => true
  | .__Nonexhaustive => false

mutual

/-- Every event of the spec-side flattening is one of the ten listed
variants. -/
theorem flattenSpec_listed : ∀ (v : Value) (e : Event), e ∈ flattenSpec v →
    e.isListedVariant = true
  | .Array a, e, h => by
      simp only [flattenSpec, List.mem_cons, List.mem_append, List.mem_singleton,
        List.not_mem_nil, or_false] at h
      rcases h with h | h | h
      · subst h; rfl
      · exact flattenSpecList_listed a e h
      · subst h; rfl
  | .Dictionary d, e, h => by
      simp only [flattenSpec, List.mem_cons, List.mem_append, List.mem_singleton,
        List.not_mem_nil, or_false] at h
      rcases h with h | h | h
      · subst h; rfl
      · exact flattenSpecDict_listed d e h
      · subst h; rfl
  | .Boolean b, e, h => by simp only [flattenSpec, List.mem_singleton] at h; subst h; rfl
  | .Data b, e, h => by simp only [flattenSpec, List.mem_singleton] at h; subst h; rfl
  | .Date b, e, h => by simp only [flattenSpec, List.mem_singleton] at h; subst h; rfl
  | .Real b, e, h => by simp only [flattenSpec, List.mem_singleton] at h; subst h; rfl
  | .Integer b, e, h => by simp only [flattenSpec, List.mem_singleton] at h; subst h; rfl
  | .String b, e, h => by simp only [flattenSpec, List.mem_singleton] at h; subst h; rfl
  | .__Nonexhaustive, e, h => by simp [flattenSpec] at h

/-- Every event of the flattenings of a list of array elements is listed. -/
theorem flattenSpecList_listed : ∀ (vs : List Value) (e : Event), e ∈ flattenSpecList vs →
    e.isListedVariant = true
  | v :: vs, e, h => by
      simp only [flattenSpecList, List.mem_append] at h
      rcases h with h | h
      · exact flattenSpec_listed v e h
      · exact flattenSpecList_listed vs e h

/-- Every event of the key/value flattenings of dictionary entries is
listed. -/
theorem flattenSpecDict_listed : ∀ (kvs : List (Str × Value)) (e : Event),
    e ∈ flattenSpecDict kvs → e.isListedVariant = true
  | (k, v) :: kvs, e, h => by
      simp only [flattenSpecDict, List.mem_cons, List.mem_append] at h
      rcases h with h | h | h
      · subst h; rfl
      · exact flattenSpec_listed v e h
      · exact flattenSpecDict_listed kvs e h

end

/-- Modelled from the spec: a frame of the reconstructing sink's container
stack (§4.3: sinks track "container depth and pending-key state") — an open
array holding the values collected so far (most recent first), or an open
dictionary holding the entries collected so far plus the pending key, if a
key has been seen without its value yet. -/
inductive Ctx where
  | arr : List Value → Ctx
  | dict : List (Str × Value) → Option Str → Ctx

/-- Modelled from the spec: the state of the reconstructing sink — the stack
of open containers and the completed top-level value, if any. -/
structure SinkState where
  stack : List Ctx
  done : Option Value

/-- The sink's initial state: nothing open, nothing completed. -/
def SinkState.init : SinkState :=
  ⟨[], none⟩

/-- Deliver one completed value into the sink state: into the enclosing open
array, into the enclosing open dictionary under its pending key, or as the
completed top-level value.  A value arriving at a dictionary with no pending
key, or after the top-level value is already complete, is a malformed
stream. -/
def completeValue (st : SinkState) (v : Value) : Option SinkState :=
  match st.stack with
  | [] =>
      match st.done with
      | none => some ⟨[], some v⟩
      | some _ => none
  | .arr items :: rest => some ⟨.arr (v :: items) :: rest, st.done⟩
  | .dict entries (some k) :: rest => some ⟨.dict ((k, v) :: entries) none :: rest, st.done⟩
  | .dict _ none :: _ => none

/-- Modelled from the spec: one step of a correct reconstructing sink — §4.3:
the sink "accepts one Event at a time", maintaining nesting and pending-key
state; a StringValue arriving at an open dictionary with no pending key is
that dictionary's next key; End events close the innermost open container;
relying on End markers, never on the length hints (§3). -/
def feed (st : SinkState) (e : Event) : Option SinkState :=
  match e with
  | .StartArray _ => some ⟨.arr [] :: st.stack, st.done⟩
  | .StartDictionary _ => some ⟨.dict [] none :: st.stack, st.done⟩
  | .EndArray =>
      match st.stack with
      | .arr items :: rest => completeValue ⟨rest, st.done⟩ (.Array items.reverse)
      | _ => none
  | .EndDictionary =>
      match st.stack with
      | .dict entries none :: rest => completeValue ⟨rest, st.done⟩ (.Dictionary entries.reverse)
      | _ => none
  | .BooleanValue b => completeValue st (.Boolean b)
  | .DataValue d => completeValue st (.Data d)
  | .DateValue d => completeValue st (.Date d)
  | .IntegerValue i => completeValue st (.Integer i)
  | .RealValue x => completeValue st (.Real x)
  | .StringValue s =>
      match st.stack with
      | .dict entries none :: rest => some ⟨.dict entries (some s) :: rest, st.done⟩
      | _ => completeValue st (.String s)
  | .__Nonexhaustive => none

/-- Replay a whole event sequence into the sink, stopping at the first
rejected event. -/
def feedAll (st : SinkState) : List Event → Option SinkState
  | [] => some st
  | e :: rest =>
      match feed st e with
      | some st' => feedAll st' rest
      | none => none

/-- Reconstruct a value from an event sequence: replay it from the initial
state and require exactly one completed top-level value with no container
left open. -/
def reconstruct (es : List Event) : Option Value :=
  match feedAll SinkState.init es with
  | some ⟨[], some v⟩ => some v
  | _ => none

/-- The sink states in which the next flattened value can be delivered:
top-level with nothing completed yet, inside an open array, or inside an
open dictionary whose key is pending. -/
def Expecting : SinkState → Prop
  | ⟨[], done⟩ => done = none
  | ⟨.arr _ :: _, _⟩ => True
  | ⟨.dict _ (some _) :: _, _⟩ => True
  | ⟨.dict _ none :: _, _⟩ => False

/-- Replaying a concatenation replays the pieces in order. -/
theorem feedAll_append (st : SinkState) (xs ys : List Event) :
    feedAll st (xs ++ ys) = (feedAll st xs).bind (fun st' => feedAll st' ys) := by
  induction xs generalizing st with
  | nil => simp [feedAll]
  | cons e xs ih =>
      simp only [List.cons_append, feedAll]
      cases feed st e with
      | none => simp
      | some st' => simpa using ih st'

mutual

/-- Replaying the flattening of one well-formed value into a sink state that
expects a value delivers exactly that value. -/
theorem feedAll_flattenSpec : ∀ (v : Value) (st : SinkState), v.wf = true →
    Expecting st → feedAll st (flattenSpec v) = completeValue st v
  | .Array a, ⟨stack, done⟩, h, hexp => by
      have hl : Value.wfList a = true := by simpa [Value.wf] using h
      have h1 : flattenSpec (.Array a)
          = .StartArray (some a.length) :: (flattenSpecList a ++ [.EndArray]) := by
        simp [flattenSpec]
      rw [h1]
      simp only [feedAll, feed]
      rw [feedAll_append, feedAll_flattenSpecList a hl [] stack done]
      simp only [Option.bind_some, feedAll, feed, List.append_nil]
      cases stack with
      | nil =>
          simp only [Expecting] at hexp
          subst hexp
          simp [completeValue]
      | cons c rest =>
          cases c with
          | arr items => simp [completeValue]
          | dict entries pending =>
              cases pending with
              | none => simp only [Expecting] at hexp
              | some k => simp [completeValue]
  | .Dictionary d, ⟨stack, done⟩, h, hexp => by
      have hl : Value.wfDict d = true := by simpa [Value.wf] using h
      have h1 : flattenSpec (.Dictionary d)
          = .StartDictionary (some d.length) :: (flattenSpecDict d ++ [.EndDictionary]) := by
        simp [flattenSpec]
      rw [h1]
      simp only [feedAll, feed]
      rw [feedAll_append, feedAll_flattenSpecDict d hl [] stack done]
      simp only [Option.bind_some, feedAll, feed, List.append_nil]
      cases stack with
      | nil =>
          simp only [Expecting] at hexp
          subst hexp
          simp [completeValue]
      | cons c rest =>
          cases c with
          | arr items => simp [completeValue]
          | dict entries pending =>
              cases pending with
              | none => simp only [Expecting] at hexp
              | some k => simp [completeValue]
  | .Boolean b, st, h, hexp => by
      simp only [flattenSpec, feedAll, feed]
      cases completeValue st (Value.Boolean b) <;> rfl
  | .Data b, st, h, hexp => by
      simp only [flattenSpec, feedAll, feed]
      cases completeValue st (Value.Data b) <;> rfl
  | .Date b, st, h, hexp => by
      simp only [flattenSpec, feedAll, feed]
      cases completeValue st (Value.Date b) <;> rfl
  | .Real b, st, h, hexp => by
      simp only [flattenSpec, feedAll, feed]
      cases completeValue st (Value.Real b) <;> rfl
  | .Integer b, st, h, hexp => by
      simp only [flattenSpec, feedAll, feed]
      cases completeValue st (Value.Integer b) <;> rfl
  | .String s, ⟨stack, done⟩, h, hexp => by
      simp only [flattenSpec, feedAll, feed]
      cases stack with
      | nil =>
          simp only [Expecting] at hexp
          subst hexp
          simp [completeValue]
      | cons c rest =>
          cases c with
          | arr items => simp [completeValue]
          | dict entries pending =>
              cases pending with
              | none => simp only [Expecting] at hexp
              | some k => simp [completeValue]
  | .__Nonexhaustive, st, h, hexp => by simp [Value.wf] at h

/-- Replaying the flattenings of well-formed array elements into an open
array collects them, reversed, on top of what was already there. -/
theorem feedAll_flattenSpecList : ∀ (vs : List Value), Value.wfList vs = true →
    ∀ (items : List Value) (stack : List Ctx) (done : Option Value),
    feedAll ⟨.arr items :: stack, done⟩ (flattenSpecList vs)
      = some ⟨.arr (vs.reverse ++ items) :: stack, done⟩
  | [], _, items, stack, done => by simp [flattenSpecList, feedAll]
  | v :: vs, h, items, stack, done => by
      have hv : v.wf = true := by
        simp [Value.wfList, Bool.and_eq_true] at h
        exact h.1
      have hvs : Value.wfList vs = true := by
        simp [Value.wfList, Bool.and_eq_true] at h
        exact h.2
      simp only [flattenSpecList]
      rw [feedAll_append,
        feedAll_flattenSpec v ⟨.arr items :: stack, done⟩ hv (by trivial)]
      simp only [completeValue, Option.some_bind]
      rw [feedAll_flattenSpecList vs hvs (v :: items) stack done]
      simp

/-- Replaying the key/value flattenings of well-formed dictionary entries
into an open dictionary with no pending key collects them, reversed, on top
of what was already there. -/
theorem feedAll_flattenSpecDict : ∀ (kvs : List (Str × Value)), Value.wfDict kvs = true →
    ∀ (entries : List (Str × Value)) (stack : List Ctx) (done : Option Value),
    feedAll ⟨.dict entries none :: stack, done⟩ (flattenSpecDict kvs)
      = some ⟨.dict (kvs.reverse ++ entries) none :: stack, done⟩
  | [], _, entries, stack, done => by simp [flattenSpecDict, feedAll]
  | (k, v) :: kvs, h, entries, stack, done => by
      have hv : v.wf = true := by
        simp [Value.wfDict, Bool.and_eq_true] at h
        exact h.1
      have hkvs : Value.wfDict kvs = true := by
        simp [Value.wfDict, Bool.and_eq_true] at h
        exact h.2
      simp only [flattenSpecDict, feedAll, feed]
      rw [feedAll_append,
        feedAll_flattenSpec v ⟨.dict entries (some k) :: stack, done⟩ hv (by trivial)]
      simp only [completeValue, Option.some_bind]
      rw [feedAll_flattenSpecDict kvs hkvs ((k, v) :: entries) stack done]
      simp

end

/-- C3: the round-trip law — flattening a well-formed tree value and
replaying the resulting event sequence through the reconstructing sink
yields the original value, key order and payloads preserved. -/
theorem claim_C3_roundtrip (v : Value) (es : List Event) (hwf : v.wf = true)
    (hnew : IntoEvents.new v = some es) : reconstruct es = some v := by
  have hes : es = flattenSpec v :=
    Option.some_inj.mp (hnew.symm.trans (new_eq_flattenSpec v hwf))
  subst hes
  have hexp : Expecting SinkState.init := by simp [Expecting, SinkState.init]
  rw [reconstruct, feedAll_flattenSpec v SinkState.init hwf hexp]
  simp [completeValue, SinkState.init]

/-- Witness for C3 at the concrete value `{"Age": 28}`. -/
theorem claim_C3_roundtrip_witness :
    Value.wf (.Dictionary [("Age", .Integer 28)]) = true ∧
    reconstruct [.StartDictionary (some 1), .StringValue "Age", .IntegerValue 28,
        .EndDictionary] = some (.Dictionary [("Age", .Integer 28)]) :=
  ⟨by decide,
    claim_C3_roundtrip (.Dictionary [("Age", .Integer 28)]) _ (by decide) (by decide)⟩

/-- C1: the flattening producer emits events by pre-order depth-first walk —
an array of length n yields StartArray(Some(n)), the flattenings of its
elements in order, then EndArray; a dictionary of n entries yields
StartDictionary(Some(n)), then per entry StringValue(key) followed by the
value's flattening, then EndDictionary; scalars yield their single value
event.  In particular the empty array flattens to exactly
[StartArray(Some(0)), EndArray] and {"Age": Integer(28)} flattens to exactly
[StartDictionary(Some(1)), StringValue("Age"), IntegerValue(28),
EndDictionary]. -/
theorem claim_C1_flatten_preorder :
    (∀ v : Value, v.wf = true → IntoEvents.new v = some (flattenSpec v)) ∧
    IntoEvents.new (.Array []) = some [.StartArray (some 0), .EndArray] ∧
    IntoEvents.new (.Dictionary [("Age", .Integer 28)]) =
      some [.StartDictionary (some 1), .StringValue "Age", .IntegerValue 28,
        .EndDictionary] :=
  ⟨new_eq_flattenSpec, by decide, by decide⟩

/-- Witness for C1 at the concrete value `[true]`. -/
theorem claim_C1_flatten_preorder_witness :
    Value.wf (.Array [.Boolean true]) = true ∧
    IntoEvents.new (.Array [.Boolean true]) =
      some (flattenSpec (.Array [.Boolean true])) :=
  ⟨by decide, claim_C1_flatten_preorder.1 (.Array [.Boolean true]) (by decide)⟩

/-- C4: the flattened event sequence of every well-formed tree value is
stack-balanced — every StartArray/StartDictionary has exactly one matching
EndArray/EndDictionary later in the sequence with correct nesting depth, and
nothing is left open. -/
theorem claim_C4_stack_balanced (v : Value) (es : List Event) (hwf : v.wf = true)
    (hnew : IntoEvents.new v = some es) : isBalanced es = true := by
  have hes : es = flattenSpec v :=
    Option.some_inj.mp (hnew.symm.trans (new_eq_flattenSpec v hwf))
  subst hes
  have h2 := balCheck_flattenSpec v [] []
  simpa [isBalanced, balCheck] using h2

/-- Witness for C4 at the nested concrete value `[[], {}]`. -/
theorem claim_C4_stack_balanced_witness :
    Value.wf (.Array [.Array [], .Dictionary []]) = true ∧
    IntoEvents.new (.Array [.Array [], .Dictionary []]) =
      some [.StartArray (some 2), .StartArray (some 0), .EndArray,
        .StartDictionary (some 0), .EndDictionary, .EndArray] ∧
    isBalanced [.StartArray (some 2), .StartArray (some 0), .EndArray,
        .StartDictionary (some 0), .EndDictionary, .EndArray] = true :=
  ⟨by decide, by decide,
    claim_C4_stack_balanced (.Array [.Array [], .Dictionary []]) _ (by decide) (by decide)⟩

/-- C9: flattening a well-formed tree value (no placeholder variant anywhere)
cannot fail — the producer never reaches its `unreachable!()` branch and
always returns an event sequence. -/
theorem claim_C9_flatten_total (v : Value) (h : v.wf = true) :
    (IntoEvents.new v).isSome = true := by
  simp [new_eq_flattenSpec v h]

/-- Witness for C9 at the concrete value `{"Age": 28}`. -/
theorem claim_C9_flatten_total_witness :
    Value.wf (.Dictionary [("Age", .Integer 28)]) = true ∧
    (IntoEvents.new (.Dictionary [("Age", .Integer 28)])).isSome = true :=
  ⟨by decide, claim_C9_flatten_total (.Dictionary [("Age", .Integer 28)]) (by decide)⟩

/-- C8 as stated is false on the source: the `Event` enum is not a closed
union of exactly the ten listed variants — it carries the hidden
`#[doc(hidden)] __Nonexhaustive` placeholder (lines 47–48), a value of the
event type that is none of the ten. -/
theorem claim_C8_counterexample :
    Event.isListedVariant Event.__Nonexhaustive = false := rfl

/-- C8 amended: the event vocabulary comprises the ten listed variants plus
the hidden `__Nonexhaustive` placeholder; every event actually emitted by
the flattening producer on a well-formed value is one of the ten listed
variants. -/
theorem claim_C8_amended (v : Value) (es : List Event) (hwf : v.wf = true)
    (hnew : IntoEvents.new v = some es) :
    ∀ e ∈ es, e.isListedVariant = true := by
  have hes : es = flattenSpec v :=
    Option.some_inj.mp (hnew.symm.trans (new_eq_flattenSpec v hwf))
  subst hes
  exact fun e he => flattenSpec_listed v e he

/-- Witness for the amended C8: the key event emitted for `{"Age": 28}` is a
listed variant. -/
theorem claim_C8_amended_witness :
    Event.isListedVariant (Event.StringValue "Age") = true :=
  claim_C8_amended (.Dictionary [("Age", .Integer 28)])
    [.StartDictionary (some 1), .StringValue "Age", .IntegerValue 28, .EndDictionary]
    (by decide) (by decide) (.StringValue "Age") (by decide)

/-! ## The format dispatcher (`Reader`) -/

/-- The kinds of I/O failure the probe can surface: a short read
(`read_exact` hitting end of stream), or an injected read/seek fault of the
underlying stream. -/
inductive IoErrorKind where
  | unexpectedEof
  | readFault
  | seekFault
deriving DecidableEq

/-- The crate's `Error` type as the dispatcher sees it (defined outside this
module); the probe only ever produces its I/O case, and the dispatcher never
inspects errors, only passes them through. -/
inductive Error where
  | Io : IoErrorKind → Error
deriving DecidableEq

/-- A seekable byte stream standing for the `R: Read + Seek` parameter: its
contents, its read position, and two injected-fault flags under which the
seek or read primitives fail, so that arbitrary I/O failures of the generic
stream are representable. -/
structure ByteStream where
  data : List Nat
  pos : Nat
  failSeek : Bool
  failRead : Bool
deriving DecidableEq

/-- `reader.seek(SeekFrom::Start(0))`: rewind to the absolute start, or fail
with the stream untouched if the stream's seek faults. -/
def seekStart (r : ByteStream) : Except Error Unit × ByteStream :=
  if r.failSeek then (.error (.Io .seekFault), r)
  else (.ok (), { r with pos := 0 })

/-- `reader.read_exact(&mut magic)` for an 8-byte buffer: fail if the
stream's read faults; fail with `UnexpectedEof` if fewer than 8 bytes remain
(the position is then unspecified by `std`; the model leaves the stream
drained); otherwise yield the next 8 bytes and advance. -/
def readExact8 (r : ByteStream) : Except Error (List Nat) × ByteStream :=
  if r.failRead then (.error (.Io .readFault), r)
  else if r.data.length - r.pos < 8 then
    (.error (.Io .unexpectedEof), { r with pos := r.data.length })
  else (.ok ((r.data.drop r.pos).take 8), { r with pos := r.pos + 8 })

/-- The ASCII bytes of the binary-plist signature `bplist00`. -/
def bplistMagic : List Nat :=
  [0x62, 0x70, 0x6C, 0x69, 0x73, 0x74, 0x30, 0x30]

/-- `Reader::is_binary` (`src/stream/mod.rs` lines 114–121): seek to the
start, read the first 8 bytes, seek back to the start, and report whether
the bytes equal the `bplist00` signature.  The `&mut R` borrow means the
(possibly mutated) stream survives every outcome, so the result is paired
with the stream. -/
def Reader.is_binary (r : ByteStream) : Except Error Bool × ByteStream :=
  match seekStart r with
  | (.error e, r1) => (.error e, r1)
  | (.ok _, r1) =>
      match readExact8 r1 with
      | (.error e, r2) => (.error e, r2)
      | (.ok magic, r2) =>
          match seekStart r2 with
          | (.error e, r3) => (.error e, r3)
          | (.ok _, r3) => (.ok (magic == bplistMagic), r3)

/-- Modelled from the spec: a format-specific sub-reader (the binary and
markup readers live in sibling modules and are external collaborators here)
— a constructor taking ownership of the stream, and a pull operation
returning the next item (`None` = exhausted) and the updated sub-reader
state. -/
structure SubReaderImpl (σ : Type) where
  new : ByteStream → σ
  next : σ → Option (Except Error Event) × σ

/-- `ReaderInner` (`src/stream/mod.rs` lines 103–107): the dispatcher state —
uninitialized and holding the (optional) raw stream, or bound to one of the
two sub-readers. -/
inductive ReaderInner (σb σx : Type) where
  | Uninitialized : Option ByteStream → ReaderInner σb σx
  | Xml : σx → ReaderInner σb σx
  | Binary : σb → ReaderInner σb σx

/-- `Reader::new` (`src/stream/mod.rs` lines 110–112): start uninitialized,
holding the stream. -/
def Reader.mkNew (σb σx : Type) (r : ByteStream) : ReaderInner σb σx :=
  .Uninitialized (some r)

/-- `<Reader as Iterator>::next` (`src/stream/mod.rs` lines 127–146),
parametric in the two sub-reader implementations.  Bound states forward the
pull verbatim.  The uninitialized state takes the held stream
(`take().unwrap()` — the `None` case is the panic, modelled as the outer
`none`), probes it, and on success binds and serves the pull from the fresh
sub-reader (the source's tail call `self.next()`, which lands in the
matching bound arm); on probe failure it restores `Uninitialized(Some(_))`
and returns the error. -/
def readerNext {σb σx : Type} (B : SubReaderImpl σb) (X : SubReaderImpl σx) :
    ReaderInner σb σx → Option (Option (Except Error Event) × ReaderInner σb σx)
  | .Xml s => some ((X.next s).1, .Xml (X.next s).2)
  | .Binary s => some ((B.next s).1, .Binary (B.next s).2)
  | .Uninitialized none => none
  | .Uninitialized (some r) =>
      match Reader.is_binary r with
      | (.ok true, r') => some ((B.next (B.new r')).1, .Binary (B.next (B.new r')).2)
      | (.ok false, r') => some ((X.next (X.new r')).1, .Xml (X.next (X.new r')).2)
      | (.error err, r') => some (some (.error err), .Uninitialized (some r'))

/-- The dispatcher states reachable between pulls: the state `Reader::new`
establishes, and everything a non-panicking pull can step to. -/
inductive Reachable {σb σx : Type} (B : SubReaderImpl σb) (X : SubReaderImpl σx) :
    ReaderInner σb σx → Prop where
  | init : ∀ r : ByteStream, Reachable B X (.Uninitialized (some r))
  | step : ∀ st res st', Reachable B X st → readerNext B X st = some (res, st') →
      Reachable B X st'

/-- A degenerate sub-reader implementation (immediately exhausted), used to
exercise the dispatcher at concrete inputs. -/
def trivialSub : SubReaderImpl Unit where
  new := fun _ => ()
  next := fun s => (none, s)

/-- A successful probe on a fault-free stream with at least 8 bytes compares
the first 8 bytes against the signature and leaves the stream rewound. -/
theorem is_binary_ok_of_long (r : ByteStream) (hs : r.failSeek = false)
    (hr : r.failRead = false) (hlen : 8 ≤ r.data.length) :
    Reader.is_binary r = (.ok (r.data.take 8 == bplistMagic), { r with pos := 0 }) := by
  have hn : ¬(r.data.length < 8) := by omega
  simp [Reader.is_binary, seekStart, readExact8, hs, hr, hn]

/-- The probe on a fault-free stream of fewer than 8 bytes fails with a
short-read error, leaving the stream drained. -/
theorem is_binary_short (r : ByteStream) (hs : r.failSeek = false)
    (hr : r.failRead = false) (hlen : r.data.length < 8) :
    Reader.is_binary r = (.error (.Io .unexpectedEof), { r with pos := r.data.length }) := by
  simp [Reader.is_binary, seekStart, readExact8, hs, hr, hlen]

/-- Whenever the probe succeeds, it has rewound the stream to the start and
its verdict is the signature comparison on the first 8 bytes. -/
theorem is_binary_ok_inv (r : ByteStream) (b : Bool) (r' : ByteStream)
    (h : Reader.is_binary r = (.ok b, r')) :
    r' = { r with pos := 0 } ∧ b = (r.data.take 8 == bplistMagic) := by
  by_cases hs : r.failSeek
  · simp [Reader.is_binary, seekStart, hs] at h
  · by_cases hr : r.failRead
    · simp [Reader.is_binary, seekStart, readExact8, hs, hr] at h
    · by_cases hlen : r.data.length < 8
      · simp [Reader.is_binary, seekStart, readExact8, hs, hr, hlen] at h
      · rw [is_binary_ok_of_long r (by simp [hs]) (by simp [hr]) (by omega)] at h
        rw [Prod.mk.injEq] at h
        exact ⟨h.2.symm, (Except.ok.inj h.1).symm⟩

/-- C2: on the first pull over a fault-free stream, the dispatcher reads the
first 8 bytes: exactly `bplist00` binds it to the binary sub-reader, any
other 8 bytes bind it to the markup sub-reader, and a stream of fewer than
8 bytes makes the pull return the probe's read error instead of binding. -/
theorem claim_C2_format_sniffing {σb σx : Type} (B : SubReaderImpl σb)
    (X : SubReaderImpl σx) (r : ByteStream) (hs : r.failSeek = false)
    (hr : r.failRead = false) :
    (r.data.take 8 = bplistMagic →
      readerNext B X (.Uninitialized (some r))
        = some ((B.next (B.new { r with pos := 0 })).1,
            .Binary (B.next (B.new { r with pos := 0 })).2)) ∧
    (r.data.take 8 ≠ bplistMagic → 8 ≤ r.data.length →
      readerNext B X (.Uninitialized (some r))
        = some ((X.next (X.new { r with pos := 0 })).1,
            .Xml (X.next (X.new { r with pos := 0 })).2)) ∧
    (r.data.length < 8 →
      readerNext B X (.Uninitialized (some r))
        = some (some (.error (.Io .unexpectedEof)),
            .Uninitialized (some { r with pos := r.data.length }))) := by
  refine ⟨fun h => ?_, fun h hlen => ?_, fun hlen => ?_⟩
  · have hlen : 8 ≤ r.data.length := by
      have := congrArg List.length h
      simp [bplistMagic] at this
      omega
    have hb : (r.data.take 8 == bplistMagic) = true := by
      simp [h]
    simp [readerNext, is_binary_ok_of_long r hs hr hlen, hb]
  · have hb : (r.data.take 8 == bplistMagic) = false := by
      simp [h]
    simp [readerNext, is_binary_ok_of_long r hs hr hlen, hb]
  · simp [readerNext, is_binary_short r hs hr hlen]

/-- Witness for C2 at the 8-byte stream `bplist00`. -/
theorem claim_C2_format_sniffing_witness :
    (⟨bplistMagic, 0, false, false⟩ : ByteStream).data.take 8 = bplistMagic ∧
    readerNext trivialSub trivialSub (.Uninitialized (some ⟨bplistMagic, 0, false, false⟩))
      = some ((trivialSub.next (trivialSub.new ⟨bplistMagic, 0, false, false⟩)).1,
          .Binary (trivialSub.next (trivialSub.new ⟨bplistMagic, 0, false, false⟩)).2) :=
  ⟨by decide,
    (claim_C2_format_sniffing trivialSub trivialSub ⟨bplistMagic, 0, false, false⟩
      rfl rfl).1 (by decide)⟩

/-- C5: if the classification probe fails, the pull returns the probe error
and the dispatcher does not transition — afterwards it is again
`Uninitialized` and still holds `Some` stream. -/
theorem claim_C5_probe_failure {σb σx : Type} (B : SubReaderImpl σb)
    (X : SubReaderImpl σx) (r r' : ByteStream) (e : Error)
    (h : Reader.is_binary r = (.error e, r')) :
    readerNext B X (.Uninitialized (some r))
      = some (some (.error e), .Uninitialized (some r')) := by
  simp [readerNext, h]

/-- Witness for C5 at a stream whose seek primitive faults. -/
theorem claim_C5_probe_failure_witness :
    Reader.is_binary ⟨[], 0, true, false⟩
      = (.error (.Io .seekFault), ⟨[], 0, true, false⟩) ∧
    readerNext trivialSub trivialSub (.Uninitialized (some ⟨[], 0, true, false⟩))
      = some (some (.error (.Io .seekFault)), .Uninitialized (some ⟨[], 0, true, false⟩)) :=
  ⟨rfl, claim_C5_probe_failure trivialSub trivialSub ⟨[], 0, true, false⟩
    ⟨[], 0, true, false⟩ (.Io .seekFault) rfl⟩

/-- C6: the dispatcher transitions at most once — a pull from a bound state
returns exactly the bound sub-reader's next result with its updated state
under the same constructor (verbatim forwarding, no re-classification), and
a pull from `Uninitialized` either stays `Uninitialized` returning the probe
error or binds to exactly one of the two sub-readers built over the probed
stream. -/
theorem claim_C6_bind_once {σb σx : Type} (B : SubReaderImpl σb)
    (X : SubReaderImpl σx) (st : ReaderInner σb σx)
    (res : Option (Except Error Event)) (st' : ReaderInner σb σx)
    (h : readerNext B X st = some (res, st')) :
    (∀ s, st = .Xml s → st' = .Xml (X.next s).2 ∧ res = (X.next s).1) ∧
    (∀ s, st = .Binary s → st' = .Binary (B.next s).2 ∧ res = (B.next s).1) ∧
    (∀ r, st = .Uninitialized (some r) →
      match Reader.is_binary r with
      | (.ok true, r') => st' = .Binary (B.next (B.new r')).2 ∧ res = (B.next (B.new r')).1
      | (.ok false, r') => st' = .Xml (X.next (X.new r')).2 ∧ res = (X.next (X.new r')).1
      | (.error e, r') => st' = .Uninitialized (some r') ∧ res = some (.error e)) := by
  refine ⟨fun s hst => ?_, fun s hst => ?_, fun r hst => ?_⟩
  · subst hst
    simp only [readerNext, Option.some.injEq, Prod.mk.injEq] at h
    exact ⟨h.2.symm, h.1.symm⟩
  · subst hst
    simp only [readerNext, Option.some.injEq, Prod.mk.injEq] at h
    exact ⟨h.2.symm, h.1.symm⟩
  · subst hst
    rcases hib : Reader.is_binary r with ⟨v, r'⟩
    cases v with
    | ok b =>
        cases b
        · simp only [readerNext, hib, Option.some.injEq, Prod.mk.injEq] at h
          simp only [hib]
          exact ⟨h.2.symm, h.1.symm⟩
        · simp only [readerNext, hib, Option.some.injEq, Prod.mk.injEq] at h
          simp only [hib]
          exact ⟨h.2.symm, h.1.symm⟩
    | error e =>
        simp only [readerNext, hib, Option.some.injEq, Prod.mk.injEq] at h
        simp only [hib]
        exact ⟨h.2.symm, h.1.symm⟩

/-- Witness for C6: a pull from a bound markup state forwards verbatim. -/
theorem claim_C6_bind_once_witness :
    (ReaderInner.Xml () : ReaderInner Unit Unit) = .Xml (trivialSub.next ()).2 ∧
    (none : Option (Except Error Event)) = (trivialSub.next ()).1 :=
  (claim_C6_bind_once trivialSub trivialSub (.Xml ()) none (.Xml ()) rfl).1 () rfl

/-- C7: after a successful classification probe the stream is positioned at
absolute offset 0, and it is exactly that rewound stream that the first pull
hands to the chosen sub-reader's constructor, on both branches. -/
theorem claim_C7_rewound_handoff {σb σx : Type} (B : SubReaderImpl σb)
    (X : SubReaderImpl σx) (r : ByteStream) (b : Bool) (r' : ByteStream)
    (h : Reader.is_binary r = (.ok b, r')) :
    r'.pos = 0 ∧
    (b = true → readerNext B X (.Uninitialized (some r))
        = some ((B.next (B.new r')).1, .Binary (B.next (B.new r')).2)) ∧
    (b = false → readerNext B X (.Uninitialized (some r))
        = some ((X.next (X.new r')).1, .Xml (X.next (X.new r')).2)) := by
  refine ⟨?_, fun hb => ?_, fun hb => ?_⟩
  · rw [(is_binary_ok_inv r b r' h).1]
  · subst hb
    simp [readerNext, h]
  · subst hb
    simp [readerNext, h]

/-- Witness for C7 at an 8-byte signature stream probed from position 5. -/
theorem claim_C7_rewound_handoff_witness :
    (⟨bplistMagic, 0, false, false⟩ : ByteStream).pos = 0 ∧
    readerNext trivialSub trivialSub (.Uninitialized (some ⟨bplistMagic, 5, false, false⟩))
      = some ((trivialSub.next (trivialSub.new ⟨bplistMagic, 0, false, false⟩)).1,
          .Binary (trivialSub.next (trivialSub.new ⟨bplistMagic, 0, false, false⟩)).2) :=
  ⟨(claim_C7_rewound_handoff trivialSub trivialSub ⟨bplistMagic, 5, false, false⟩
      true ⟨bplistMagic, 0, false, false⟩ rfl).1,
    (claim_C7_rewound_handoff trivialSub trivialSub ⟨bplistMagic, 5, false, false⟩
      true ⟨bplistMagic, 0, false, false⟩ rfl).2.1 rfl⟩

/-- A non-panicking pull never leaves the dispatcher in
`Uninitialized None`. -/
theorem readerNext_no_none {σb σx : Type} (B : SubReaderImpl σb)
    (X : SubReaderImpl σx) (st : ReaderInner σb σx)
    (res : Option (Except Error Event)) (st' : ReaderInner σb σx)
    (h : readerNext B X st = some (res, st')) :
    st' ≠ .Uninitialized none := by
  match st with
  | .Xml s =>
      simp only [readerNext, Option.some.injEq, Prod.mk.injEq] at h
      rw [← h.2]
      intro hc
      cases hc
  | .Binary s =>
      simp only [readerNext, Option.some.injEq, Prod.mk.injEq] at h
      rw [← h.2]
      intro hc
      cases hc
  | .Uninitialized none => simp [readerNext] at h
  | .Uninitialized (some r) =>
      rcases hib : Reader.is_binary r with ⟨v, r'⟩
      cases v with
      | ok b =>
          cases b <;>
            · simp only [readerNext, hib, Option.some.injEq, Prod.mk.injEq] at h
              rw [← h.2]
              intro hc
              cases hc
      | error e =>
          simp only [readerNext, hib, Option.some.injEq, Prod.mk.injEq] at h
          rw [← h.2]
          intro hc
          simp at hc

/-- Every dispatcher state other than `Uninitialized None` serves a pull
without panicking. -/
theorem readerNext_isSome {σb σx : Type} (B : SubReaderImpl σb)
    (X : SubReaderImpl σx) (st : ReaderInner σb σx)
    (h : st ≠ ReaderInner.Uninitialized none) :
    (readerNext B X st).isSome = true := by
  match st with
  | .Xml s => simp [readerNext]
  | .Binary s => simp [readerNext]
  | .Uninitialized none => exact absurd rfl h
  | .Uninitialized (some r) =>
      rcases hib : Reader.is_binary r with ⟨v, r'⟩
      cases v with
      | ok b => cases b <;> simp [readerNext, hib]
      | error e => simp [readerNext, hib]

/-- C10: in every reachable dispatcher state, an `Uninitialized` dispatcher
holds `Some` stream — `Reader::new` establishes it and the probe-failure
path restores it — so the `take().unwrap()` of the first pull can never
panic. -/
theorem claim_C10_unwrap_safe {σb σx : Type} (B : SubReaderImpl σb)
    (X : SubReaderImpl σx) (st : ReaderInner σb σx) (h : Reachable B X st) :
    st ≠ .Uninitialized none ∧ (readerNext B X st).isSome = true := by
  induction h with
  | init r =>
      have hne : (ReaderInner.Uninitialized (some r) : ReaderInner σb σx)
          ≠ .Uninitialized none := by
        intro hc
        simp at hc
      exact ⟨hne, readerNext_isSome B X _ hne⟩
  | step st res st' _ hstep ih =>
      have hne := readerNext_no_none B X st res st' hstep
      exact ⟨hne, readerNext_isSome B X _ hne⟩

/-- Witness for C10 at the freshly created dispatcher over the empty
stream. -/
theorem claim_C10_unwrap_safe_witness :
    (ReaderInner.Uninitialized (some ⟨[], 0, false, false⟩) : ReaderInner Unit Unit)
      ≠ .Uninitialized none ∧
    (readerNext trivialSub trivialSub
      (.Uninitialized (some ⟨[], 0, false, false⟩))).isSome = true :=
  claim_C10_unwrap_safe trivialSub trivialSub _
    (Reachable.init ⟨[], 0, false, false⟩)

end Plist
